import Mathlib

/-!
Shallow embedding of the statebrain fuzzy-Markov block (block.go, util.go).

Floating-point vectors are modelled as lists of real numbers.  The external
autofunc/​neuralnet collaborators (log-softmax, log-domain addition, slicing,
broadcast addition, reverse-mode gradient accumulation) are modelled by the
exact real functions the spec ascribes to them.  Go pointer identity of
`autofunc.Variable` values is modelled by an explicit identifier so that
gradient maps keyed on variable identity can be stated faithfully.
-/

namespace Statebrain

/-- Identity of an `autofunc.Variable`, modelling Go pointer identity:
`pOut s` and `pTrans s c` are the variables allocated by `NewBlock` for state
`s` (output logits, resp. transition logits for input symbol `c`); `ext n` is a
caller-allocated variable (input or state vector); `freshInit` is the transient
variable allocated by `Block.initialState` inside `Batch`; `deserOut` /
`deserTrans` are the fresh variables allocated by `DeserializeBlock`. -/
inductive VarId where
  | pOut (s : Nat)
  | pTrans (s c : Nat)
  | ext (n : Nat)
  | freshInit
  | deserOut (s : Nat)
  | deserTrans (s c : Nat)
deriving DecidableEq

/-- An `autofunc.Variable`: an identity plus the held vector. -/
structure Variable where
  id : VarId
  vec : List ℝ

/-- `StateEntry` (block.go): one fuzzy Markov state. -/
structure StateEntry where
  Output : Variable
  Transitions : List Variable

/-- `Block` (block.go): the statebrain model. -/
structure Block where
  Entries : List StateEntry

/-- `allZeroes` (util.go). -/
noncomputable def allZeroes : List ℝ → Bool
  | [] => true
  | x :: xs => if x ≠ 0 then false else allZeroes xs

/-- Loop of `maxIndex` (util.go).  In the Go source `maxVal` starts at negative
infinity and the comparison is `x >= maxVal`; in the real-valued model the
initial negative infinity is represented by `none`, against which every real
compares greater-or-equal. -/
noncomputable def maxIndexLoop : List ℝ → Option ℝ → Nat → Nat → Nat
  | [], _, _, res => res
  | x :: xs, none, i, _ => maxIndexLoop xs (some x) (i + 1) i
  | x :: xs, some m, i, res =>
      if m ≤ x then maxIndexLoop xs (some x) (i + 1) i
      else maxIndexLoop xs (some m) (i + 1) res

/-- `maxIndex` (util.go): index of a maximal entry, scanning left to right with
a `>=` comparison. -/
noncomputable def maxIndex (v : List ℝ) : Nat := maxIndexLoop v none 0 0

/-- Log of the sum of exponentials of a vector (the normalizer used by
`neuralnet.LogSoftmaxLayer`). -/
noncomputable def logSumExp (v : List ℝ) : ℝ := Real.log ((v.map Real.exp).sum)

/-- `neuralnet.LogSoftmaxLayer.Apply`: componentwise `x i - logSumExp v`. -/
noncomputable def logSoftmax (v : List ℝ) : List ℝ := v.map (fun x => x - logSumExp v)

/-- `autofunc.AddLogDomain`: componentwise `log (exp a + exp b)`. -/
noncomputable def AddLogDomain (a b : List ℝ) : List ℝ :=
  List.zipWith (fun x y => Real.log (Real.exp x + Real.exp y)) a b

/-- `autofunc.Slice v i j`: the sub-vector of indices `[i, j)`. -/
def Slice (v : List ℝ) (i j : Nat) : List ℝ := (v.take j).drop i

/-- `autofunc.AddFirst v s`: add the first component of `s` to every component
of `v`. -/
noncomputable def AddFirst (v s : List ℝ) : List ℝ := v.map (fun x => x + s.headI)

/-- The entry list built by `NewBlock` (block.go): for each state a
zero-initialized output-logit vector of length `alphabetSize` and, per input
symbol, a zero-initialized transition-logit vector of length `stateCount`. -/
def newBlockEntries (alphabetSize stateCount : Nat) : List StateEntry :=
  (List.range stateCount).map (fun s =>
    { Output := ⟨VarId.pOut s, List.replicate alphabetSize 0⟩
      Transitions :=
        (List.range alphabetSize).map (fun c => ⟨VarId.pTrans s c, List.replicate stateCount 0⟩) })

/-- The block `NewBlock` returns when no `make` panics. -/
def newBlockP (alphabetSize stateCount : Nat) : Block := ⟨newBlockEntries alphabetSize stateCount⟩

/-- `NewBlock` (block.go).  Go's `make` panics when handed a negative length;
the panic is modelled as `none`.  The outer `make([]StateEntry, stateCount)`
always runs; the inner `make`s with length `alphabetSize` run only when the
loop body executes, i.e. when `stateCount > 0`.  No other validation exists in
the source. -/
def NewBlock (alphabetSize stateCount : Int) : Option Block :=
  if stateCount < 0 ∨ (alphabetSize < 0 ∧ 0 < stateCount) then none
  else some (newBlockP alphabetSize.toNat stateCount.toNat)

/-- `Block.StateSize` (block.go). -/
def Block.StateSize (b : Block) : Nat := b.Entries.length

/-- `Block.Parameters` (block.go): for each entry append the output variable and
then the transition variables. -/
def Block.Parameters (b : Block) : List Variable :=
  b.Entries.foldl (fun res e => (res ++ [e.Output]) ++ e.Transitions) []

/-- The value vector built by `Block.initialState` (block.go): log-softmax of
the vector of length `stateCount` holding `100` at index `0` and `0`
elsewhere. -/
noncomputable def initialStateVec (b : Block) : List ℝ :=
  logSoftmax ((List.replicate b.Entries.length 0).set 0 100)

/-- `Block.initialState` (block.go): a freshly allocated variable (not among
`Parameters`) holding `initialStateVec`. -/
noncomputable def Block.initialState (b : Block) : Variable :=
  ⟨VarId.freshInit, initialStateVec b⟩

/-- Placeholder variable for an out-of-range transition access (Go would
panic; never reached under the well-formedness hypotheses). -/
def dfltVar : Variable := ⟨VarId.ext 0, []⟩

/-- Fold of `autofunc.AddLogDomain` over the weighted per-state vectors,
mirroring the nil-initialized accumulator of the loop in `Block.Batch`. -/
noncomputable def mixFold : List (List ℝ) → List ℝ
  | [] => []
  | w :: ws => ws.foldl AddLogDomain w

/-- The weighted per-state output terms of one `Batch` step:
`AddFirst (logSoftmax entry.Output) (Slice state s (s+1))` for each entry. -/
noncomputable def outputTerms (b : Block) (st : List ℝ) : List (List ℝ) :=
  b.Entries.enum.map (fun se => AddFirst (logSoftmax se.2.Output.vec) (Slice st se.1 (se.1 + 1)))

/-- The weighted per-state transition terms of one `Batch` step for input
symbol `c`. -/
noncomputable def transTerms (b : Block) (c : Nat) (st : List ℝ) : List (List ℝ) :=
  b.Entries.enum.map (fun se =>
    AddFirst (logSoftmax (se.2.Transitions.getD c dfltVar).vec) (Slice st se.1 (se.1 + 1)))

/-- The state vector a `Batch` step actually uses: an all-zero incoming state
is replaced by the initial state (block.go, lines 76-78). -/
noncomputable def usedState (b : Block) (st : List ℝ) : List ℝ :=
  if allZeroes st then initialStateVec b else st

/-- The output log-distribution of one `Batch` step on input score vector `iv`
and incoming state `st`. -/
noncomputable def itemOutput (b : Block) (iv st : List ℝ) : List ℝ :=
  mixFold (outputTerms b (usedState b st))

/-- The next-state log-distribution of one `Batch` step. -/
noncomputable def itemNewState (b : Block) (iv st : List ℝ) : List ℝ :=
  mixFold (transTerms b (maxIndex iv) (usedState b st))

/-- `rnn.BlockInput`: per-item input score vectors and incoming states. -/
structure BlockInput where
  Inputs : List Variable
  States : List Variable

/-- The vectors exposed by `blockOutput` (block.go). -/
structure blockOutput where
  OutputVecs : List (List ℝ)
  StateVecs : List (List ℝ)

/-- One iteration of the loop of `Block.Batch` over `b.Entries`, transcribed
with the block threaded through the accumulator to record that no iteration
writes to it.  The accumulator mirrors the nil-initialized `output` /
`newStates` results of the source. -/
noncomputable def loopBody (c : Nat) (st : List ℝ)
    (acc : Option (List ℝ) × Option (List ℝ) × Block) (se : ℕ × StateEntry) :
    Option (List ℝ) × Option (List ℝ) × Block :=
  let outputs := logSoftmax se.2.Output.vec
  let transitions := logSoftmax (se.2.Transitions.getD c dfltVar).vec
  let probLog := Slice st se.1 (se.1 + 1)
  let scaledOut := AddFirst outputs probLog
  let scaledStates := AddFirst transitions probLog
  match acc with
  | (none, _, bAcc) => (some scaledOut, some scaledStates, bAcc)
  | (some o, none, bAcc) => (some (AddLogDomain o scaledOut), some scaledStates, bAcc)
  | (some o, some ns, bAcc) =>
      (some (AddLogDomain o scaledOut), some (AddLogDomain ns scaledStates), bAcc)

/-- The inner loop of `Block.Batch` over `b.Entries`. -/
noncomputable def itemLoopT (b : Block) (c : Nat) (st : List ℝ) :
    Option (List ℝ) × Option (List ℝ) × Block :=
  b.Entries.enum.foldl (loopBody c st) (none, none, b)

/-- One iteration of the per-item loop of `Block.Batch`: replace an all-zero
state by `initialState`, select the input symbol by `maxIndex`, run the entry
loop, and append the resulting vectors. -/
noncomputable def batchBody (acc : blockOutput × Block) (p : Variable × Variable) :
    blockOutput × Block :=
  let bCur := acc.2
  let stVar := if allZeroes p.2.vec then bCur.initialState else p.2
  let r := itemLoopT bCur (maxIndex p.1.vec) stVar.vec
  (⟨acc.1.OutputVecs ++ [r.1.getD []], acc.1.StateVecs ++ [r.2.1.getD []]⟩, r.2.2)

/-- `Block.Batch` (block.go), transcribed with the receiver threaded through the
per-item fold. -/
noncomputable def BatchT (b : Block) (inp : BlockInput) : blockOutput × Block :=
  (inp.Inputs.zip inp.States).foldl batchBody (⟨[], []⟩, b)

/-- A gradient map keyed by variable identity (`autofunc.Gradient`). -/
abbrev GradMap : Type := List (VarId × List ℝ)

/-- Componentwise addition of two vectors. -/
noncomputable def addVec (a b : List ℝ) : List ℝ := List.zipWith (fun x y => x + y) a b

/-- Modelled from the spec: the external AD collaborator accumulates an
upstream gradient into the caller-supplied map keyed by variable identity;
only variables the caller registered in the map receive contributions
(spec sections 3 and 4.4; `autofunc.Variable.PropagateGradient`). -/
noncomputable def accumGrad (g : GradMap) (i : VarId) (v : List ℝ) : GradMap :=
  g.map (fun p => if p.1 = i then (p.1, addVec p.2 v) else p)

/-- Vector of length `n` holding `x` at index `s` and `0` elsewhere (the
backward image of `autofunc.Slice` composed with `AddFirst`). -/
def onehotVec (n s : Nat) (x : ℝ) : List ℝ := (List.replicate n (0 : ℝ)).set s x

/-- Modelled from the spec (section 4.4): the exact reverse-mode derivative of
log-softmax: an upstream vector `a` propagates to `a - (sum a) * softmax x`. -/
noncomputable def logSoftmaxGrad (x a : List ℝ) : List ℝ :=
  List.zipWith (fun xi ai => ai - a.sum * Real.exp (xi - logSumExp x)) x a

/-- Modelled from the spec (section 4.4): reverse-mode propagation through the
section 4.3 mixture.  With forward value `out = mixFold terms`, each state's
branch receives the upstream times that branch's probability share
`exp (branch j - out j)`; this propagates through log-softmax into the state's
logit variable, and through the broadcast add and slice into coordinate `s` of
the incoming state variable.  The block is threaded through the fold to record
that propagation writes only to the gradient map. -/
noncomputable def propBody (stVar : Variable) (u out : List ℝ)
    (acc : GradMap × Block) (sv : ℕ × Variable) : GradMap × Block :=
  let st := stVar.vec
  let branch := AddFirst (logSoftmax sv.2.vec) (Slice st sv.1 (sv.1 + 1))
  let a := List.zipWith (fun uj p => uj * Real.exp (p.1 - p.2)) u (branch.zip out)
  let g1 := accumGrad acc.1 sv.2.id (logSoftmaxGrad sv.2.vec a)
  let g2 := accumGrad g1 stVar.id (onehotVec st.length sv.1 a.sum)
  (g2, acc.2)

/-- Reverse-mode propagation through the full mixture (see `propBody`). -/
noncomputable def propagateMixture (vars : List Variable) (stVar : Variable) (u : List ℝ)
    (gb : GradMap × Block) : GradMap × Block :=
  let st := stVar.vec
  let terms := vars.enum.map (fun sv => AddFirst (logSoftmax sv.2.vec) (Slice st sv.1 (sv.1 + 1)))
  let out := mixFold terms
  vars.enum.foldl (propBody stVar u out) gb

/-- `rnn.UpstreamGradient`: optional upstream gradients for the outputs and for
the outgoing states. -/
structure UpstreamGradient where
  Outputs : Option (List (List ℝ))
  States : Option (List (List ℝ))

/-- `blockOutput.Gradient` (block.go), recomputing the per-item graphs from the
block and the inputs: upstream output gradients propagate through each item's
output mixture, upstream state gradients through its transition mixture.  The
block is threaded to record that nothing writes to it. -/
noncomputable def GradientT (b : Block) (inp : BlockInput) (u : UpstreamGradient)
    (g : GradMap) : GradMap × Block :=
  let items := inp.Inputs.zip inp.States
  let stVarOf := fun (p : Variable × Variable) =>
    if allZeroes p.2.vec then b.initialState else p.2
  let afterOut :=
    match u.Outputs with
    | none => (g, b)
    | some us =>
        (items.zip us).foldl
          (fun acc q =>
            propagateMixture (acc.2.Entries.map (fun e => e.Output)) (stVarOf q.1) q.2 acc)
          (g, b)
  match u.States with
  | none => afterOut
  | some us =>
      (items.zip us).foldl
        (fun acc q =>
          propagateMixture
            (acc.2.Entries.map (fun e => e.Transitions.getD (maxIndex q.1.1.vec) dfltVar))
            (stVarOf q.1) q.2 acc)
        afterOut

/-- The JSON image of an `autofunc.Variable`: only the `Vector` field. -/
structure SerializedVariable where
  Vector : List ℝ

/-- The JSON image of a `StateEntry`. -/
structure SerializedEntry where
  Output : SerializedVariable
  Transitions : List SerializedVariable

/-- `Block.Serialize` (block.go): `json.Marshal` records, per entry, the output
vector and the transition vectors. -/
def Block.Serialize (b : Block) : List SerializedEntry :=
  b.Entries.map (fun e => ⟨⟨e.Output.vec⟩, e.Transitions.map (fun t => ⟨t.vec⟩)⟩)

/-- `DeserializeBlock` (block.go): `json.Unmarshal` allocates fresh variables
holding the recorded vectors. -/
def DeserializeBlock (d : List SerializedEntry) : Block :=
  ⟨d.enum.map (fun se =>
    ⟨⟨VarId.deserOut se.1, se.2.Output.Vector⟩,
     se.2.Transitions.enum.map (fun ct => ⟨VarId.deserTrans se.1 ct.1, ct.2.Vector⟩)⟩)⟩

/-- The numeric content of a state entry: the held vectors, without the
variable identities. -/
def entryData (e : StateEntry) : List ℝ × List (List ℝ) :=
  (e.Output.vec, e.Transitions.map Variable.vec)

/-! ### Basic list and real-number helper lemmas -/

lemma getD_map (f : ℝ → ℝ) (w : List ℝ) (j : ℕ) (h : j < w.length) :
    (w.map f).getD j 0 = f (w.getD j 0) := by
  rw [List.getD_eq_getElem _ _ (by simpa using h), List.getD_eq_getElem _ _ h, List.getElem_map]

lemma getD_zipWith (f : ℝ → ℝ → ℝ) (a b : List ℝ) (j : ℕ)
    (ha : j < a.length) (hb : j < b.length) :
    (List.zipWith f a b).getD j 0 = f (a.getD j 0) (b.getD j 0) := by
  rw [List.getD_eq_getElem _ _ (by simp; omega), List.getD_eq_getElem _ _ ha,
    List.getD_eq_getElem _ _ hb, List.getElem_zipWith]

lemma sum_map_eq_sum_range (l : List ℝ) (f : ℝ → ℝ) :
    (l.map f).sum = ∑ j ∈ Finset.range l.length, f (l.getD j 0) := by
  induction l with
  | nil => simp
  | cons x xs ih =>
    rw [List.map_cons, List.sum_cons, ih, List.length_cons, Finset.sum_range_succ']
    simp [add_comm]

lemma sum_range_listSum {α : Type} (L : List α) (F : α → ℕ → ℝ) (A : ℕ) :
    ∑ j ∈ Finset.range A, (L.map (fun x => F x j)).sum
      = (L.map (fun x => ∑ j ∈ Finset.range A, F x j)).sum := by
  induction L with
  | nil => simp
  | cons x xs ih => simp [Finset.sum_add_distrib, ih]

lemma sum_map_fst_zip {α : Type} (st : List ℝ) (L : List α) (f : ℝ → ℝ)
    (h : st.length = L.length) :
    ((st.zip L).map (fun p => f p.1)).sum = (st.map f).sum := by
  induction st generalizing L with
  | nil => simp
  | cons x xs ih =>
    cases L with
    | nil => simp at h
    | cons y ys => simp [ih ys (by simpa using h)]

lemma sum_map_exp_pos (v : List ℝ) (hv : v ≠ []) : 0 < (v.map Real.exp).sum := by
  cases v with
  | nil => exact absurd rfl hv
  | cons x xs =>
    rw [List.map_cons, List.sum_cons]
    have h1 : 0 ≤ (xs.map Real.exp).sum := by
      apply List.sum_nonneg
      intro y hy
      simp only [List.mem_map] at hy
      obtain ⟨z, _, rfl⟩ := hy
      exact (Real.exp_pos z).le
    linarith [Real.exp_pos x]

lemma exp_logSumExp (v : List ℝ) (hv : v ≠ []) :
    Real.exp (logSumExp v) = (v.map Real.exp).sum :=
  Real.exp_log (sum_map_exp_pos v hv)

/-! ### allZeroes -/

lemma allZeroes_eq_true_iff (v : List ℝ) : allZeroes v = true ↔ ∀ x ∈ v, x = 0 := by
  induction v with
  | nil => simp [allZeroes]
  | cons x xs ih =>
    by_cases hx : x = 0
    · simp [allZeroes, hx, ih]
    · simp [allZeroes, hx]

/-! ### maxIndex: the scan keeps the last maximal index -/

lemma maxIndexLoop_spec (v : List ℝ) (xs : List ℝ) :
    ∀ (m : ℝ) (i res : ℕ),
      (∀ k, xs.get? k = v.get? (i + k)) →
      res < v.length →
      m = v.getD res 0 →
      (∀ k, k < i → v.getD k 0 ≤ m) →
      (∀ k, res < k → k < i → v.getD k 0 < m) →
      maxIndexLoop xs (some m) i res < v.length ∧
      (∀ k, k < v.length → v.getD k 0 ≤ v.getD (maxIndexLoop xs (some m) i res) 0) ∧
      (∀ k, maxIndexLoop xs (some m) i res < k → k < v.length →
        v.getD k 0 < v.getD (maxIndexLoop xs (some m) i res) 0) := by
  induction xs with
  | nil =>
    intro m i res hsuf hres hm hmax hlast
    have h0 : v.get? i = none := by
      have h1 := (hsuf 0).symm
      simpa using h1
    have hlen : v.length ≤ i := List.get?_eq_none.mp h0
    refine ⟨by simpa [maxIndexLoop] using hres, ?_, ?_⟩
    · intro k hk
      simp only [maxIndexLoop]
      rw [← hm]
      exact hmax k (lt_of_lt_of_le hk hlen)
    · intro k hk1 hk2
      simp only [maxIndexLoop] at hk1 ⊢
      rw [← hm]
      exact hlast k hk1 (lt_of_lt_of_le hk2 hlen)
  | cons x ys ih =>
    intro m i res hsuf hres hm hmax hlast
    have hx : v.get? i = some x := by
      have h0 := (hsuf 0).symm
      simpa using h0
    obtain ⟨hi, hval⟩ := List.get?_eq_some.mp hx
    have hgi : v.getD i 0 = x := by
      rw [List.getD_eq_getElem _ _ hi]
      simpa using hval
    have hsuf' : ∀ k, ys.get? k = v.get? (i + 1 + k) := by
      intro k
      have h1 := hsuf (k + 1)
      simpa [Nat.add_comm, Nat.add_left_comm, Nat.add_assoc] using h1
    simp only [maxIndexLoop]
    split_ifs with hcmp
    · refine ih x (i + 1) i hsuf' hi hgi.symm ?_ ?_
      · intro k hk
        rcases Nat.lt_succ_iff_lt_or_eq.mp hk with hk' | hk'
        · exact le_trans (hmax k hk') hcmp
        · subst hk'; rw [hgi]
      · intro k hk1 hk2
        omega
    · push_neg at hcmp
      refine ih m (i + 1) res hsuf' hres hm ?_ ?_
      · intro k hk
        rcases Nat.lt_succ_iff_lt_or_eq.mp hk with hk' | hk'
        · exact hmax k hk'
        · subst hk'; rw [hgi]; exact hcmp.le
      · intro k hk1 hk2
        rcases Nat.lt_succ_iff_lt_or_eq.mp hk2 with hk' | hk'
        · exact hlast k hk1 hk'
        · subst hk'; rw [hgi]; exact hcmp

lemma maxIndex_spec (v : List ℝ) (hv : v ≠ []) :
    maxIndex v < v.length ∧
    (∀ k, k < v.length → v.getD k 0 ≤ v.getD (maxIndex v) 0) ∧
    (∀ k, maxIndex v < k → k < v.length → v.getD k 0 < v.getD (maxIndex v) 0) := by
  cases v with
  | nil => exact absurd rfl hv
  | cons x xs =>
    have hdef : maxIndex (x :: xs) = maxIndexLoop xs (some x) 1 0 := rfl
    rw [hdef]
    refine maxIndexLoop_spec (x :: xs) xs x 1 0 ?_ (by simp) (by simp) ?_ ?_
    · intro k
      simp [Nat.add_comm]
    · intro k hk
      interval_cases k
      simp
    · intro k hk1 hk2
      omega

lemma maxIndex_lt_length (v : List ℝ) (hv : v ≠ []) : maxIndex v < v.length :=
  (maxIndex_spec v hv).1

/-! ### log-softmax -/

lemma length_logSoftmax (v : List ℝ) : (logSoftmax v).length = v.length := by
  simp [logSoftmax]

lemma getD_logSoftmax (v : List ℝ) (j : ℕ) (h : j < v.length) :
    (logSoftmax v).getD j 0 = v.getD j 0 - logSumExp v :=
  getD_map _ v j h

lemma sum_exp_logSoftmax (v : List ℝ) (hv : v ≠ []) :
    ((logSoftmax v).map Real.exp).sum = 1 := by
  have hpos := sum_map_exp_pos v hv
  rw [logSoftmax, List.map_map]
  have h1 : (Real.exp ∘ fun x => x - logSumExp v)
      = fun x => Real.exp x * (Real.exp (logSumExp v))⁻¹ := by
    funext x
    simp [Real.exp_sub, div_eq_mul_inv]
  rw [h1, List.sum_map_mul_right, exp_logSumExp v hv]
  exact mul_inv_cancel₀ (ne_of_gt hpos)

/-! ### log-domain addition and the mixture fold -/

lemma length_AddLogDomain (a b : List ℝ) :
    (AddLogDomain a b).length = min a.length b.length := by
  simp [AddLogDomain]

lemma getD_AddLogDomain (a b : List ℝ) (j : ℕ) (ha : j < a.length) (hb : j < b.length) :
    (AddLogDomain a b).getD j 0
      = Real.log (Real.exp (a.getD j 0) + Real.exp (b.getD j 0)) :=
  getD_zipWith _ a b j ha hb

lemma foldl_AddLogDomain_length (A : ℕ) (ws : List (List ℝ)) :
    ∀ (w : List ℝ), w.length = A → (∀ x ∈ ws, x.length = A) →
      (ws.foldl AddLogDomain w).length = A := by
  induction ws with
  | nil => intro w hw _; simpa using hw
  | cons x xs ih =>
    intro w hw hws
    rw [List.foldl_cons]
    refine ih _ ?_ (fun y hy => hws y (List.mem_cons_of_mem _ hy))
    rw [length_AddLogDomain, hw, hws x (List.mem_cons_self _ _)]
    simp

lemma exp_getD_foldl (A : ℕ) (ws : List (List ℝ)) :
    ∀ (w : List ℝ) (j : ℕ), w.length = A → (∀ x ∈ ws, x.length = A) → j < A →
      Real.exp ((ws.foldl AddLogDomain w).getD j 0)
        = Real.exp (w.getD j 0) + (ws.map (fun x => Real.exp (x.getD j 0))).sum := by
  induction ws with
  | nil => intro w j _ _ _; simp
  | cons x xs ih =>
    intro w j hw hws hj
    have hx : x.length = A := hws x (List.mem_cons_self _ _)
    have hlen : (AddLogDomain w x).length = A := by
      rw [length_AddLogDomain, hw, hx]; simp
    rw [List.foldl_cons, List.map_cons, List.sum_cons,
      ih _ j hlen (fun y hy => hws y (List.mem_cons_of_mem _ hy)) hj,
      getD_AddLogDomain w x j (by omega) (by omega),
      Real.exp_log (by positivity)]
    ring

lemma length_mixFold (A : ℕ) (ws : List (List ℝ)) (hne : ws ≠ [])
    (hws : ∀ x ∈ ws, x.length = A) : (mixFold ws).length = A := by
  cases ws with
  | nil => exact absurd rfl hne
  | cons w ws' =>
    rw [mixFold]
    exact foldl_AddLogDomain_length A ws' w (hws w (List.mem_cons_self _ _))
      (fun y hy => hws y (List.mem_cons_of_mem _ hy))

lemma exp_getD_mixFold (A : ℕ) (ws : List (List ℝ)) (j : ℕ) (hne : ws ≠ [])
    (hws : ∀ x ∈ ws, x.length = A) (hj : j < A) :
    Real.exp ((mixFold ws).getD j 0) = (ws.map (fun x => Real.exp (x.getD j 0))).sum := by
  cases ws with
  | nil => exact absurd rfl hne
  | cons w ws' =>
    rw [mixFold, List.map_cons, List.sum_cons,
      exp_getD_foldl A ws' w j (hws w (List.mem_cons_self _ _))
        (fun y hy => hws y (List.mem_cons_of_mem _ hy)) hj]

/-! ### The weighted terms in index form versus lockstep form -/

lemma Slice_singleton (st : List ℝ) (i : ℕ) (h : i < st.length) :
    Slice st i (i + 1) = [st.getD i 0] := by
  rw [Slice, List.drop_take]
  have h1 : i + 1 - i = 1 := by omega
  rw [h1, List.take_one_drop_eq_of_lt_length h, List.getD_eq_getElem _ _ h]
  rfl

lemma AddFirst_singleton (w : List ℝ) (x : ℝ) :
    AddFirst w [x] = w.map (fun y => y + x) := rfl

lemma enum_terms_eq_zip {α : Type} (st : List ℝ) (L : List α) (F : α → List ℝ)
    (hlen : L.length ≤ st.length) :
    L.enum.map (fun p => AddFirst (logSoftmax (F p.2)) (Slice st p.1 (p.1 + 1)))
      = (st.zip L).map (fun p => (logSoftmax (F p.2)).map (fun y => y + p.1)) := by
  apply List.ext_getElem
  · simp only [List.length_map, List.enum_length, List.length_zip]
    omega
  · intro i h1 h2
    have hi : i < L.length := by simpa using h1
    have hist : i < st.length := lt_of_lt_of_le hi hlen
    rw [List.getElem_map, List.getElem_map, List.getElem_enum, List.getElem_zip]
    simp only
    rw [Slice_singleton st i hist, AddFirst_singleton, List.getD_eq_getElem _ _ hist]

/-! ### The mixture is a convex combination of softmax distributions -/

lemma mix_distribution {α : Type} (A : ℕ) (st : List ℝ) (L : List α) (F : α → List ℝ)
    (hne : L ≠ []) (hA : 0 < A) (hst : st.length = L.length)
    (hF : ∀ x ∈ L, (F x).length = A)
    (hsum : (st.map Real.exp).sum = 1) :
    ((mixFold (L.enum.map
        (fun p => AddFirst (logSoftmax (F p.2)) (Slice st p.1 (p.1 + 1))))).map
        Real.exp).sum = 1 ∧
    (∀ j, j < A →
      (mixFold (L.enum.map
          (fun p => AddFirst (logSoftmax (F p.2)) (Slice st p.1 (p.1 + 1))))).getD j 0
        = Real.log (((st.zip L).map
            (fun p => Real.exp p.1 * Real.exp ((logSoftmax (F p.2)).getD j 0))).sum)) := by
  rw [enum_terms_eq_zip st L F hst.symm.le]
  set Z := (st.zip L).map (fun p => (logSoftmax (F p.2)).map (fun y => y + p.1)) with hZdef
  have hzlen : (st.zip L).length = L.length := by
    rw [List.length_zip, hst, min_self]
  have hZlen : ∀ w ∈ Z, w.length = A := by
    intro w hw
    rw [hZdef] at hw
    simp only [List.mem_map] at hw
    obtain ⟨p, hp, rfl⟩ := hw
    rw [List.length_map, length_logSoftmax]
    exact hF p.2 (List.of_mem_zip hp).2
  have hZne : Z ≠ [] := by
    rw [hZdef]
    intro hcon
    have hlen := congrArg List.length hcon
    simp only [List.length_map, List.length_nil] at hlen
    rw [hzlen] at hlen
    exact hne (List.length_eq_zero.mp hlen)
  have hpt : ∀ j, j < A → ∀ p ∈ st.zip L,
      Real.exp (((logSoftmax (F p.2)).map (fun y => y + p.1)).getD j 0)
        = Real.exp p.1 * Real.exp ((logSoftmax (F p.2)).getD j 0) := by
    intro j hj p hp
    have hlenp : j < (logSoftmax (F p.2)).length := by
      rw [length_logSoftmax, hF p.2 (List.of_mem_zip hp).2]
      exact hj
    rw [getD_map _ _ _ hlenp, Real.exp_add]
    ring
  have hexp : ∀ j, j < A →
      Real.exp ((mixFold Z).getD j 0)
        = ((st.zip L).map
            (fun p => Real.exp p.1 * Real.exp ((logSoftmax (F p.2)).getD j 0))).sum := by
    intro j hj
    rw [exp_getD_mixFold A Z j hZne hZlen hj, hZdef, List.map_map]
    refine congrArg List.sum (List.map_congr_left ?_)
    intro p hp
    simpa using hpt j hj p hp
  have hgetD : ∀ j, j < A →
      (mixFold Z).getD j 0
        = Real.log (((st.zip L).map
            (fun p => Real.exp p.1 * Real.exp ((logSoftmax (F p.2)).getD j 0))).sum) := by
    intro j hj
    rw [← hexp j hj, Real.log_exp]
  refine ⟨?_, hgetD⟩
  rw [sum_map_eq_sum_range, length_mixFold A Z hZne hZlen]
  calc ∑ j ∈ Finset.range A, Real.exp ((mixFold Z).getD j 0)
      = ∑ j ∈ Finset.range A, ((st.zip L).map
          (fun p => Real.exp p.1 * Real.exp ((logSoftmax (F p.2)).getD j 0))).sum := by
        refine Finset.sum_congr rfl ?_
        intro j hj
        exact hexp j (Finset.mem_range.mp hj)
    _ = ((st.zip L).map (fun p => ∑ j ∈ Finset.range A,
          Real.exp p.1 * Real.exp ((logSoftmax (F p.2)).getD j 0))).sum :=
        sum_range_listSum (st.zip L)
          (fun p j => Real.exp p.1 * Real.exp ((logSoftmax (F p.2)).getD j 0)) A
    _ = ((st.zip L).map (fun p => Real.exp p.1)).sum := by
        refine congrArg List.sum (List.map_congr_left ?_)
        intro p hp
        rw [← Finset.mul_sum]
        have hFlen := hF p.2 (List.of_mem_zip hp).2
        have hnep : F p.2 ≠ [] := by
          intro hcon
          rw [hcon] at hFlen
          simp at hFlen
          omega
        have hlsA : (logSoftmax (F p.2)).length = A := by
          rw [length_logSoftmax]
          exact hFlen
        have hsum1 : ∑ j ∈ Finset.range A, Real.exp ((logSoftmax (F p.2)).getD j 0)
            = ((logSoftmax (F p.2)).map Real.exp).sum := by
          rw [sum_map_eq_sum_range, hlsA]
        rw [hsum1, sum_exp_logSoftmax (F p.2) hnep, mul_one]
    _ = (st.map Real.exp).sum := sum_map_fst_zip st L Real.exp hst
    _ = 1 := hsum

/-! ### A valid incoming state is used as supplied -/

lemma initialStateVec_one (b : Block) (h : b.Entries.length = 1) :
    initialStateVec b = [0] := by
  rw [initialStateVec, h]
  have h1 : (List.replicate 1 (0 : ℝ)).set 0 100 = [100] := rfl
  rw [h1]
  have h2 : logSumExp [100] = 100 := by
    rw [logSumExp]
    simp
  rw [logSoftmax, h2]
  simp

lemma usedState_eq_self (b : Block) (st : List ℝ) (hst : st.length = b.Entries.length)
    (hsum : (st.map Real.exp).sum = 1) : usedState b st = st := by
  rw [usedState]
  by_cases hz : allZeroes st
  · have hall : ∀ x ∈ st, x = 0 := (allZeroes_eq_true_iff st).mp hz
    have hrep : st = List.replicate st.length 0 := List.eq_replicate_of_mem hall
    have hlen1 : st.length = 1 := by
      have hcast : (st.map Real.exp).sum = (st.length : ℝ) := by
        conv_lhs => rw [hrep]
        simp [List.sum_replicate, nsmul_eq_mul]
      rw [hsum] at hcast
      exact_mod_cast hcast.symm
    have hst1 : st = [0] := by
      have hr2 := hrep
      rw [hlen1] at hr2
      simpa using hr2
    rw [if_pos hz, initialStateVec_one b (by omega), hst1]
  · rw [if_neg hz]

/-- C1: for a valid incoming state log-distribution (exponentiating to sum 1)
and any input score vector, both log-vectors produced by one step of `Batch`
exponentiate to sum 1, and each coordinate is the log of the convex
combination, weighted by the incoming distribution, of the per-state
log-softmax output (resp. transition) distributions. -/
theorem batch_step_distribution (b : Block) (A : ℕ) (iv st : List ℝ)
    (hne : b.Entries ≠ []) (hA : 0 < A)
    (hout : ∀ e ∈ b.Entries, e.Output.vec.length = A)
    (htrc : ∀ e ∈ b.Entries, e.Transitions.length = A)
    (htrv : ∀ e ∈ b.Entries, ∀ t ∈ e.Transitions, t.vec.length = b.Entries.length)
    (hiv : iv.length = A)
    (hst : st.length = b.Entries.length)
    (hsum : (st.map Real.exp).sum = 1) :
    ((itemOutput b iv st).map Real.exp).sum = 1 ∧
    ((itemNewState b iv st).map Real.exp).sum = 1 ∧
    (∀ j, j < A →
      (itemOutput b iv st).getD j 0
        = Real.log (((st.zip b.Entries).map
            (fun p => Real.exp p.1 * Real.exp ((logSoftmax p.2.Output.vec).getD j 0))).sum)) ∧
    (∀ j, j < b.Entries.length →
      (itemNewState b iv st).getD j 0
        = Real.log (((st.zip b.Entries).map
            (fun p => Real.exp p.1 *
              Real.exp ((logSoftmax
                (p.2.Transitions.getD (maxIndex iv) dfltVar).vec).getD j 0))).sum)) := by
  have hstE : st.length = b.Entries.length := hst
  have hus : usedState b st = st := usedState_eq_self b st hst hsum
  have hS : 0 < b.Entries.length := List.length_pos.mpr hne
  have hmo := mix_distribution A st b.Entries (fun e => e.Output.vec) hne hA hstE hout hsum
  have htlen : ∀ e ∈ b.Entries,
      (e.Transitions.getD (maxIndex iv) dfltVar).vec.length = b.Entries.length := by
    intro e he
    have hivne : iv ≠ [] := by
      intro hcon
      rw [hcon] at hiv
      simp at hiv
      omega
    have hlt : maxIndex iv < e.Transitions.length := by
      rw [htrc e he, ← hiv]
      exact maxIndex_lt_length iv hivne
    have hmem : e.Transitions.getD (maxIndex iv) dfltVar ∈ e.Transitions := by
      rw [List.getD_eq_getElem _ _ hlt]
      exact List.getElem_mem hlt
    exact htrv e he _ hmem
  have hmt := mix_distribution b.Entries.length st b.Entries
    (fun e => (e.Transitions.getD (maxIndex iv) dfltVar).vec) hne hS hstE htlen hsum
  refine ⟨?_, ?_, ?_, ?_⟩
  · rw [itemOutput, hus, outputTerms]
    exact hmo.1
  · rw [itemNewState, hus, transTerms]
    exact hmt.1
  · intro j hj
    rw [itemOutput, hus, outputTerms]
    exact hmo.2 j hj
  · intro j hj
    rw [itemNewState, hus, transTerms]
    exact hmt.2 j hj

/-- Witness for C1: the concrete one-state one-symbol block with the valid
incoming state `[0]`. -/
theorem batch_step_distribution_witness :
    ((itemOutput (newBlockP 1 1) [0] [0]).map Real.exp).sum = 1 :=
  (batch_step_distribution (newBlockP 1 1) 1 [0] [0]
    (by simp [newBlockP, newBlockEntries])
    (by norm_num)
    (by intro e he; simp [newBlockP, newBlockEntries] at he; subst he; rfl)
    (by intro e he; simp [newBlockP, newBlockEntries] at he; subst he; rfl)
    (by intro e he
        simp [newBlockP, newBlockEntries] at he
        subst he
        intro t ht
        simp at ht
        subst ht
        simp [newBlockP, newBlockEntries])
    rfl
    (by simp [newBlockP, newBlockEntries])
    (by simp)).1

/-! ### C2: arg-max tie-breaking -/

/-- C2 counterexample: the score vector [1, 1] has equal maximal entries at
indices 0 < 1, yet the selected symbol is 1, not the lowest index 0. -/
theorem maxIndex_tie_counterexample :
    maxIndex [(1 : ℝ), 1] = 1 ∧ maxIndex [(1 : ℝ), 1] ≠ 0 := by
  have h : maxIndex [(1 : ℝ), 1] = 1 := by
    simp [maxIndex, maxIndexLoop]
  exact ⟨h, by rw [h]; norm_num⟩

/-- C2 amended: the `>=` comparison lets a later equal value overwrite, so
with equal maximal entries at indices `i < j` the selected symbol is at least
`j` (the last maximal index), never `i`. -/
theorem maxIndex_picks_last_maximal (v : List ℝ) (i j : ℕ) (hij : i < j)
    (hj : j < v.length) (heq : v.getD i 0 = v.getD j 0)
    (hmax : ∀ k, k < v.length → v.getD k 0 ≤ v.getD j 0) :
    maxIndex v ≠ i ∧ j ≤ maxIndex v ∧ v.getD (maxIndex v) 0 = v.getD j 0 := by
  have hv : v ≠ [] := by
    intro hcon
    rw [hcon] at hj
    simp at hj
  obtain ⟨h1, h2, h3⟩ := maxIndex_spec v hv
  have hje : j ≤ maxIndex v := by
    by_contra hlt
    push_neg at hlt
    exact absurd (h3 j hlt hj) (not_lt.mpr (hmax _ h1))
  exact ⟨by omega, hje, le_antisymm (hmax _ h1) (h2 j hj)⟩

/-- Witness for the amended C2 at the concrete tie [1, 1]. -/
theorem maxIndex_picks_last_maximal_witness :
    1 ≤ maxIndex [(1 : ℝ), 1] :=
  (maxIndex_picks_last_maximal [(1 : ℝ), 1] 0 1 (by norm_num) (by norm_num) rfl
    (by
      intro k hk
      simp at hk
      interval_cases k <;> norm_num [List.getD])).2.1

/-! ### C10: the all-zero incoming state is replaced -/

/-- C10: a batch item whose incoming state vector is entirely zero uses the
fixed initial log-distribution, the log-softmax of [100, 0, ..., 0] of length
stateCount; a state vector with a nonzero entry is used as supplied. -/
theorem batch_zero_state_replaced (b : Block) (iv st : List ℝ) :
    (allZeroes st = true ↔ ∀ x ∈ st, x = 0) ∧
    ((∀ x ∈ st, x = 0) →
      itemOutput b iv st
          = mixFold (outputTerms b
              (logSoftmax ((List.replicate b.Entries.length 0).set 0 100))) ∧
      itemNewState b iv st
          = mixFold (transTerms b (maxIndex iv)
              (logSoftmax ((List.replicate b.Entries.length 0).set 0 100)))) ∧
    ((¬ ∀ x ∈ st, x = 0) →
      itemOutput b iv st = mixFold (outputTerms b st) ∧
      itemNewState b iv st = mixFold (transTerms b (maxIndex iv) st)) := by
  refine ⟨allZeroes_eq_true_iff st, ?_, ?_⟩
  · intro hz
    have hz' : allZeroes st = true := (allZeroes_eq_true_iff st).mpr hz
    rw [itemOutput, itemNewState, usedState, if_pos hz', initialStateVec]
    exact ⟨rfl, rfl⟩
  · intro hz
    have hz' : ¬ allZeroes st = true := fun hc => hz ((allZeroes_eq_true_iff st).mp hc)
    rw [itemOutput, itemNewState, usedState, if_neg hz']
    exact ⟨rfl, rfl⟩

/-- Witness for C10: a concrete all-zero state is replaced by the initial
distribution. -/
theorem batch_zero_state_replaced_witness :
    itemOutput (newBlockP 1 1) [0] [0]
      = mixFold (outputTerms (newBlockP 1 1)
          (logSoftmax ((List.replicate (newBlockP 1 1).Entries.length 0).set 0 100))) :=
  ((batch_zero_state_replaced (newBlockP 1 1) [0] [0]).2.1 (by simp)).1

/-! ### C4: the Parameters enumeration -/

lemma foldl_params_append (es : List StateEntry) :
    ∀ acc : List Variable,
      es.foldl (fun res e => (res ++ [e.Output]) ++ e.Transitions) acc
        = acc ++ es.flatMap (fun e => e.Output :: e.Transitions) := by
  induction es with
  | nil => intro acc; simp
  | cons e es ih =>
    intro acc
    rw [List.foldl_cons, ih, List.flatMap_cons]
    simp

lemma Parameters_eq_flatMap (b : Block) :
    b.Parameters = b.Entries.flatMap (fun e => e.Output :: e.Transitions) := by
  rw [Block.Parameters, foldl_params_append]
  simp

lemma params_newBlockP_ids (A S : ℕ) :
    (newBlockP A S).Parameters.map Variable.id
      = (List.range S).flatMap
          (fun s => VarId.pOut s :: (List.range A).map (VarId.pTrans s)) := by
  rw [Parameters_eq_flatMap]
  show (((List.range S).map _).flatMap _).map Variable.id = _
  rw [List.flatMap_map, List.map_flatMap]
  refine List.flatMap_congr ?_
  intro s _
  simp [List.map_map]

/-- C4 corrected: `Parameters` enumerates, for each state in index order, the
output-logit variable followed by that state's transition-logit variables in
symbol order; no start-logits tensor exists, and the enumeration is a pure
function of the block (hence identical across calls). -/
theorem parameters_order (b : Block) (A S : ℕ) :
    b.Parameters = b.Entries.flatMap (fun e => e.Output :: e.Transitions) ∧
    (newBlockP A S).Parameters.map Variable.id
      = (List.range S).flatMap
          (fun s => VarId.pOut s :: (List.range A).map (VarId.pTrans s)) :=
  ⟨Parameters_eq_flatMap b, params_newBlockP_ids A S⟩

/-- C4 counterexample: at the spec's 4-symbol 3-state block the enumeration
holds exactly the 15 per-state output and transition variables, beginning with
state 0's output logits; no start-logits tensor is present. -/
theorem parameters_no_start_counterexample :
    (newBlockP 4 3).Parameters.map Variable.id
      = [VarId.pOut 0, VarId.pTrans 0 0, VarId.pTrans 0 1, VarId.pTrans 0 2, VarId.pTrans 0 3,
         VarId.pOut 1, VarId.pTrans 1 0, VarId.pTrans 1 1, VarId.pTrans 1 2, VarId.pTrans 1 3,
         VarId.pOut 2, VarId.pTrans 2 0, VarId.pTrans 2 1, VarId.pTrans 2 2, VarId.pTrans 2 3] ∧
    VarId.freshInit ∉ (newBlockP 4 3).Parameters.map Variable.id ∧
    (newBlockP 4 3).Parameters.length = 15 := by
  have h : (newBlockP 4 3).Parameters.map Variable.id
      = [VarId.pOut 0, VarId.pTrans 0 0, VarId.pTrans 0 1, VarId.pTrans 0 2, VarId.pTrans 0 3,
         VarId.pOut 1, VarId.pTrans 1 0, VarId.pTrans 1 1, VarId.pTrans 1 2, VarId.pTrans 1 3,
         VarId.pOut 2, VarId.pTrans 2 0, VarId.pTrans 2 1, VarId.pTrans 2 2, VarId.pTrans 2 3] := by
    rw [params_newBlockP_ids]
    rfl
  refine ⟨h, ?_, ?_⟩
  · rw [h]
    decide
  · have h2 := congrArg List.length h
    simpa using h2

/-! ### C5: construction-time validation -/

/-- C5 counterexample: a zero state count (and a zero alphabet size) are
accepted: `NewBlock` returns an ordinary, degenerate block, not an error. -/
theorem newBlock_zero_accepted_counterexample :
    NewBlock 1 0 = some ⟨[]⟩ ∧
    NewBlock 0 2 = some (newBlockP 0 2) ∧ (newBlockP 0 2).StateSize = 2 :=
  ⟨rfl, rfl, rfl⟩

/-- C5 corrected: `NewBlock` performs no validation; the only fatal cases are
Go runtime panics from `make` with a negative length (negative stateCount, or
negative alphabetSize with positive stateCount), modelled as `none`.  Zero
sizes are accepted and yield a block. -/
theorem newBlock_accepts_zero_rejects_negative (a s : Int) :
    (NewBlock a s = none ↔ s < 0 ∨ (a < 0 ∧ 0 < s)) ∧
    (0 ≤ a → 0 ≤ s → NewBlock a s = some (newBlockP a.toNat s.toNat) ∧
      (newBlockP a.toNat s.toNat).StateSize = s.toNat) := by
  constructor
  · rw [NewBlock]
    split_ifs with h
    · simpa using h
    · simpa using h
  · intro ha hs
    rw [NewBlock, if_neg (by omega)]
    exact ⟨rfl, by simp [newBlockP, newBlockEntries, Block.StateSize]⟩

/-- Witness for the corrected C5: a negative size panics, a zero size does
not. -/
theorem newBlock_accepts_zero_rejects_negative_witness :
    NewBlock 3 (-1) = none ∧ NewBlock 3 0 = some (newBlockP 3 0) :=
  ⟨(newBlock_accepts_zero_rejects_negative 3 (-1)).1.mpr (Or.inl (by norm_num)),
   ((newBlock_accepts_zero_rejects_negative 3 0).2 (by norm_num) (by norm_num)).1⟩

/-! ### C6: initialization values -/

/-- C6 counterexample: `NewBlock` leaves every output-logit and
transition-logit vector all zero. -/
theorem newBlock_zero_init_counterexample :
    NewBlock 2 2 = some (newBlockP 2 2) ∧
    (newBlockP 2 2).Parameters.map Variable.vec
      = [[0, 0], [0, 0], [0, 0], [0, 0], [0, 0], [0, 0]] :=
  ⟨rfl, rfl⟩

/-- C6 corrected: `NewBlock` initializes deterministically: every per-state
output-logit vector and every transition-logit vector is the all-zero vector;
no random draw occurs. -/
theorem newBlock_init_all_zero (A S : ℕ) :
    ∀ e ∈ (newBlockP A S).Entries,
      e.Output.vec = List.replicate A 0 ∧
      ∀ t ∈ e.Transitions, t.vec = List.replicate S 0 := by
  intro e he
  simp only [newBlockP, newBlockEntries, List.mem_map, List.mem_range] at he
  obtain ⟨s, _, rfl⟩ := he
  refine ⟨rfl, ?_⟩
  intro t ht
  simp only [List.mem_map, List.mem_range] at ht
  obtain ⟨c, _, rfl⟩ := ht
  rfl

/-- Witness for the corrected C6 at the one-state one-symbol block. -/
theorem newBlock_init_all_zero_witness :
    (⟨⟨VarId.pOut 0, [0]⟩, [⟨VarId.pTrans 0 0, [0]⟩]⟩ : StateEntry).Output.vec
      = List.replicate 1 0 :=
  (newBlock_init_all_zero 1 1 ⟨⟨VarId.pOut 0, [0]⟩, [⟨VarId.pTrans 0 0, [0]⟩]⟩
    (by
      have h : (newBlockP 1 1).Entries
          = [⟨⟨VarId.pOut 0, [0]⟩, [⟨VarId.pTrans 0 0, [0]⟩]⟩] := rfl
      rw [h]
      exact List.mem_singleton.mpr rfl)).1

/-! ### C7: serialization round trip -/

lemma deser_trans_vecs (s : ℕ) (ts : List SerializedVariable) :
    ∀ k : ℕ,
      ((ts.enumFrom k).map
          (fun ct => (⟨VarId.deserTrans s ct.1, ct.2.Vector⟩ : Variable))).map Variable.vec
        = ts.map SerializedVariable.Vector := by
  induction ts with
  | nil => intro k; rfl
  | cons t ts ih =>
    intro k
    simpa [List.enumFrom] using ih (k + 1)

lemma deser_entry_vecs (d : List SerializedEntry) :
    ∀ k : ℕ,
      ((d.enumFrom k).map (fun se =>
          (⟨⟨VarId.deserOut se.1, se.2.Output.Vector⟩,
            (se.2.Transitions.enumFrom 0).map
              (fun ct => ⟨VarId.deserTrans se.1 ct.1, ct.2.Vector⟩)⟩ : StateEntry))).flatMap
          (fun e => e.Output.vec :: e.Transitions.map Variable.vec)
        = d.flatMap
            (fun se => se.Output.Vector :: se.Transitions.map SerializedVariable.Vector) := by
  induction d with
  | nil => intro k; rfl
  | cons e d ih =>
    intro k
    simp only [List.enumFrom, List.map_cons, List.flatMap_cons]
    rw [ih (k + 1)]
    rw [deser_trans_vecs k e.Transitions 0]

/-- C7: serializing a block and deserializing the result yields a block whose
Parameters enumeration has the same length and holds element-wise equal
vectors (the variable identities are fresh, as in the Go round trip). -/
theorem serialize_roundtrip (b : Block) :
    ((DeserializeBlock b.Serialize).Parameters).map Variable.vec
      = b.Parameters.map Variable.vec ∧
    (DeserializeBlock b.Serialize).Parameters.length = b.Parameters.length := by
  have hmain : ((DeserializeBlock b.Serialize).Parameters).map Variable.vec
      = b.Parameters.map Variable.vec := by
    rw [Parameters_eq_flatMap, Parameters_eq_flatMap, List.map_flatMap, List.map_flatMap]
    simp only [List.map_cons, DeserializeBlock, Block.Serialize, List.enum]
    rw [deser_entry_vecs (b.Entries.map
      (fun e => (⟨⟨e.Output.vec⟩, e.Transitions.map (fun t => ⟨t.vec⟩)⟩ : SerializedEntry))) 0,
      List.flatMap_map]
    refine List.flatMap_congr ?_
    intro e _
    simp [List.map_map]
  refine ⟨hmain, ?_⟩
  have h2 := congrArg List.length hmain
  simpa using h2

/-! ### C8: the forward and backward passes never write to the block -/

lemma foldl_preserves_proj {α β γ : Type _} (f : β → α → β) (p : β → γ)
    (hp : ∀ acc x, p (f acc x) = p acc) :
    ∀ (L : List α) (acc : β), p (L.foldl f acc) = p acc := by
  intro L
  induction L with
  | nil => intro acc; rfl
  | cons x xs ih =>
    intro acc
    rw [List.foldl_cons, ih, hp]

lemma loopBody_block (c : Nat) (st : List ℝ)
    (acc : Option (List ℝ) × Option (List ℝ) × Block) (se : ℕ × StateEntry) :
    (loopBody c st acc se).2.2 = acc.2.2 := by
  rcases acc with ⟨o, ns, bb⟩
  rcases o with _ | o
  · rfl
  · rcases ns with _ | ns <;> rfl

lemma itemLoopT_block (b : Block) (c : Nat) (st : List ℝ) :
    (itemLoopT b c st).2.2 = b :=
  foldl_preserves_proj (loopBody c st) (fun acc => acc.2.2) (loopBody_block c st)
    b.Entries.enum (none, none, b)

lemma batchBody_block (acc : blockOutput × Block) (p : Variable × Variable) :
    (batchBody acc p).2 = acc.2 := by
  simp only [batchBody]
  exact itemLoopT_block _ _ _

lemma BatchT_block (b : Block) (inp : BlockInput) : (BatchT b inp).2 = b :=
  foldl_preserves_proj batchBody Prod.snd batchBody_block
    (inp.Inputs.zip inp.States) (⟨[], []⟩, b)

lemma propBody_block (stVar : Variable) (u out : List ℝ) (acc : GradMap × Block)
    (sv : ℕ × Variable) : (propBody stVar u out acc sv).2 = acc.2 := rfl

lemma propagateMixture_block (vars : List Variable) (stVar : Variable) (u : List ℝ)
    (gb : GradMap × Block) : (propagateMixture vars stVar u gb).2 = gb.2 :=
  foldl_preserves_proj (propBody stVar u _) Prod.snd (propBody_block stVar u _) vars.enum gb

lemma GradientT_block (b : Block) (inp : BlockInput) (u : UpstreamGradient) (g : GradMap) :
    (GradientT b inp u g).2 = b := by
  rcases u with ⟨uo, us⟩
  rw [GradientT]
  rcases us with _ | us
  · rcases uo with _ | uo
    · rfl
    · exact foldl_preserves_proj _ Prod.snd
        (fun acc q => propagateMixture_block _ _ _ acc) _ (g, b)
  · rcases uo with _ | uo
    · exact foldl_preserves_proj _ Prod.snd
        (fun acc q => propagateMixture_block _ _ _ acc) _ (g, b)
    · rw [foldl_preserves_proj _ Prod.snd
        (fun acc q => propagateMixture_block _ _ _ acc) _ _]
      exact foldl_preserves_proj _ Prod.snd
        (fun acc q => propagateMixture_block _ _ _ acc) _ (g, b)

/-- C8: neither the forward step nor a subsequent gradient propagation into a
caller-supplied gradient map mutates the block: every vector in `Entries`
(each state's output logits and transition logits) is unchanged. -/
theorem batch_gradient_no_mutation (b : Block) (inp : BlockInput)
    (u : UpstreamGradient) (g : GradMap) :
    ((BatchT b inp).2).Entries = b.Entries ∧
    ((GradientT b inp u g).2).Entries = b.Entries :=
  ⟨congrArg Block.Entries (BatchT_block b inp),
   congrArg Block.Entries (GradientT_block b inp u g)⟩

/-! ### C3: gradient propagation touches only registered parameters -/

lemma keys_accumGrad (g : GradMap) (i : VarId) (v : List ℝ) :
    (accumGrad g i v).map Prod.fst = g.map Prod.fst := by
  rw [accumGrad, List.map_map]
  refine List.map_congr_left ?_
  intro p _
  by_cases h : p.1 = i <;> simp [Function.comp, h]

lemma keys_propBody (stVar : Variable) (u out : List ℝ) (acc : GradMap × Block)
    (sv : ℕ × Variable) :
    (propBody stVar u out acc sv).1.map Prod.fst = acc.1.map Prod.fst := by
  simp only [propBody]
  rw [keys_accumGrad, keys_accumGrad]

lemma keys_propagateMixture (vars : List Variable) (stVar : Variable) (u : List ℝ)
    (gb : GradMap × Block) :
    (propagateMixture vars stVar u gb).1.map Prod.fst = gb.1.map Prod.fst :=
  foldl_preserves_proj (propBody stVar u _) (fun acc => acc.1.map Prod.fst)
    (keys_propBody stVar u _) vars.enum gb

lemma keys_GradientT (b : Block) (inp : BlockInput) (u : UpstreamGradient) (g : GradMap) :
    (GradientT b inp u g).1.map Prod.fst = g.map Prod.fst := by
  rcases u with ⟨uo, us⟩
  rw [GradientT]
  rcases us with _ | us
  · rcases uo with _ | uo
    · rfl
    · exact foldl_preserves_proj _ (fun acc => acc.1.map Prod.fst)
        (fun acc q => keys_propagateMixture _ _ _ acc) _ (g, b)
  · rcases uo with _ | uo
    · exact foldl_preserves_proj _ (fun acc => acc.1.map Prod.fst)
        (fun acc q => keys_propagateMixture _ _ _ acc) _ (g, b)
    · rw [foldl_preserves_proj _ (fun acc => acc.1.map Prod.fst)
        (fun acc q => keys_propagateMixture _ _ _ acc) _ _]
      exact foldl_preserves_proj _ (fun acc => acc.1.map Prod.fst)
        (fun acc q => keys_propagateMixture _ _ _ acc) _ (g, b)

/-- C3 counterexample: at the spec's end-to-end scenario (4-symbol 3-state
fresh block, one-hot symbol 2, all-zero incoming state hence the initial
distribution, all-ones upstream output gradient, gradient map registered over
`Parameters`), the gradient map's keys after propagation are exactly the 15
per-state output and transition parameters; no start-logits key exists, and
the transient initial-state variable (`freshInit`) is not among them. -/
theorem gradient_no_start_counterexample :
    ((GradientT (newBlockP 4 3)
        ⟨[⟨VarId.ext 0, [0, 0, 1, 0]⟩], [⟨VarId.ext 1, [0, 0, 0]⟩]⟩
        ⟨some [[1, 1, 1, 1]], none⟩
        ((newBlockP 4 3).Parameters.map
          (fun v => (v.id, List.replicate v.vec.length (0 : ℝ))))).1).map Prod.fst
      = [VarId.pOut 0, VarId.pTrans 0 0, VarId.pTrans 0 1, VarId.pTrans 0 2, VarId.pTrans 0 3,
         VarId.pOut 1, VarId.pTrans 1 0, VarId.pTrans 1 1, VarId.pTrans 1 2, VarId.pTrans 1 3,
         VarId.pOut 2, VarId.pTrans 2 0, VarId.pTrans 2 1, VarId.pTrans 2 2, VarId.pTrans 2 3] ∧
    VarId.freshInit ∉
      ((GradientT (newBlockP 4 3)
        ⟨[⟨VarId.ext 0, [0, 0, 1, 0]⟩], [⟨VarId.ext 1, [0, 0, 0]⟩]⟩
        ⟨some [[1, 1, 1, 1]], none⟩
        ((newBlockP 4 3).Parameters.map
          (fun v => (v.id, List.replicate v.vec.length (0 : ℝ))))).1).map Prod.fst := by
  have hg : (((newBlockP 4 3).Parameters.map
      (fun v => (v.id, List.replicate v.vec.length (0 : ℝ)))).map Prod.fst)
      = (newBlockP 4 3).Parameters.map Variable.id := by
    rw [List.map_map]
    rfl
  have hk := keys_GradientT (newBlockP 4 3)
    ⟨[⟨VarId.ext 0, [0, 0, 1, 0]⟩], [⟨VarId.ext 1, [0, 0, 0]⟩]⟩
    ⟨some [[1, 1, 1, 1]], none⟩
    ((newBlockP 4 3).Parameters.map (fun v => (v.id, List.replicate v.vec.length (0 : ℝ))))
  rw [hk, hg, params_newBlockP_ids]
  exact ⟨rfl, by decide⟩

/-- C3 corrected: gradient propagation can only accumulate into keys already
present in the caller-supplied map; the block has no start-logits parameter:
`Parameters` of a freshly built block consists solely of per-state output and
transition variables, and the transient initial-state variable is not among
them, so no gradient ever accumulates into a start-logits parameter. -/
theorem gradient_keys_preserved_no_start (b : Block) (inp : BlockInput)
    (u : UpstreamGradient) (g : GradMap) (A S : ℕ) :
    ((GradientT b inp u g).1).map Prod.fst = g.map Prod.fst ∧
    VarId.freshInit ∉ (newBlockP A S).Parameters.map Variable.id := by
  refine ⟨keys_GradientT b inp u g, ?_⟩
  rw [params_newBlockP_ids]
  simp [List.mem_flatMap]

/-! ### Bridging the transcription of the Batch loop to the mixture form -/

lemma mixFold_map_foldl (wF : ℕ × StateEntry → List ℝ) (x : ℕ × StateEntry)
    (L : List (ℕ × StateEntry)) :
    mixFold ((x :: L).map wF) = L.foldl (fun a se => AddLogDomain a (wF se)) (wF x) := by
  rw [List.map_cons, mixFold, List.foldl_map]

lemma foldl_loopBody_some (c : Nat) (st : List ℝ) (L : List (ℕ × StateEntry)) :
    ∀ (o ns : List ℝ) (bb : Block),
      L.foldl (loopBody c st) (some o, some ns, bb)
        = (some (L.foldl (fun a se =>
              AddLogDomain a (AddFirst (logSoftmax se.2.Output.vec)
                (Slice st se.1 (se.1 + 1)))) o),
           some (L.foldl (fun a se =>
              AddLogDomain a (AddFirst (logSoftmax (se.2.Transitions.getD c dfltVar).vec)
                (Slice st se.1 (se.1 + 1)))) ns),
           bb) := by
  induction L with
  | nil => intro o ns bb; rfl
  | cons x xs ih =>
    intro o ns bb
    rw [List.foldl_cons, List.foldl_cons, List.foldl_cons]
    exact ih _ _ bb

lemma itemLoopT_eq (b : Block) (c : Nat) (st : List ℝ) (hne : b.Entries ≠ []) :
    itemLoopT b c st
      = (some (mixFold (outputTerms b st)), some (mixFold (transTerms b c st)), b) := by
  obtain ⟨e, es, hE⟩ : ∃ e es, b.Entries = e :: es := by
    cases hEE : b.Entries with
    | nil => exact absurd hEE hne
    | cons e es => exact ⟨e, es, rfl⟩
  rw [itemLoopT, outputTerms, transTerms, hE]
  have henum : (e :: es).enum = (0, e) :: es.enumFrom 1 := rfl
  rw [henum, List.foldl_cons]
  have h0 : loopBody c st ((none, none, b) : Option (List ℝ) × Option (List ℝ) × Block) (0, e)
      = (some (AddFirst (logSoftmax e.Output.vec) (Slice st 0 (0 + 1))),
         some (AddFirst (logSoftmax (e.Transitions.getD c dfltVar).vec) (Slice st 0 (0 + 1))),
         b) := rfl
  rw [h0, foldl_loopBody_some, mixFold_map_foldl, mixFold_map_foldl]

lemma itemLoopT_outputs (b : Block) (iv st : List ℝ) :
    ((itemLoopT b (maxIndex iv) (usedState b st)).1).getD [] = itemOutput b iv st ∧
    ((itemLoopT b (maxIndex iv) (usedState b st)).2.1).getD [] = itemNewState b iv st := by
  by_cases hne : b.Entries = []
  · constructor
    · rw [itemLoopT, hne, itemOutput, outputTerms, hne]
      rfl
    · rw [itemLoopT, hne, itemNewState, transTerms, hne]
      rfl
  · rw [itemLoopT_eq b _ _ hne]
    exact ⟨rfl, rfl⟩

lemma BatchT_formula (b : Block) (inp : BlockInput) :
    (BatchT b inp).1
      = ⟨(inp.Inputs.zip inp.States).map (fun p => itemOutput b p.1.vec p.2.vec),
         (inp.Inputs.zip inp.States).map (fun p => itemNewState b p.1.vec p.2.vec)⟩ := by
  rw [BatchT]
  have key : ∀ (L : List (Variable × Variable)) (acc : blockOutput),
      L.foldl batchBody (acc, b)
        = (⟨acc.OutputVecs ++ L.map (fun p => itemOutput b p.1.vec p.2.vec),
            acc.StateVecs ++ L.map (fun p => itemNewState b p.1.vec p.2.vec)⟩, b) := by
    intro L
    induction L with
    | nil => intro acc; simp
    | cons x xs ih =>
      intro acc
      have hsv : (if allZeroes x.2.vec then b.initialState else x.2).vec
          = usedState b x.2.vec := by
        rw [usedState]
        by_cases hz : allZeroes x.2.vec
        · rw [if_pos hz, if_pos hz]
          rfl
        · rw [if_neg hz, if_neg hz]
      have hb1 : batchBody (acc, b) x
          = (⟨acc.OutputVecs ++ [itemOutput b x.1.vec x.2.vec],
              acc.StateVecs ++ [itemNewState b x.1.vec x.2.vec]⟩, b) := by
        simp only [batchBody]
        rw [hsv, (itemLoopT_outputs b x.1.vec x.2.vec).1,
          (itemLoopT_outputs b x.1.vec x.2.vec).2, itemLoopT_block]
      rw [List.foldl_cons, hb1, ih]
      simp
  rw [key (inp.Inputs.zip inp.States) ⟨[], []⟩]
  simp

/-! ### C9: the forward pass depends only on the numeric data -/

lemma getD_map_vec (l : List Variable) (c : ℕ) :
    (l.getD c dfltVar).vec = (l.map Variable.vec).getD c [] := by
  induction l generalizing c with
  | nil => cases c <;> rfl
  | cons x xs ih =>
    cases c with
    | zero => rfl
    | succ n => simpa using ih n

lemma enumFrom_map_congr {γ : Type _} (F G : ℕ × StateEntry → γ)
    (hFG : ∀ i e1 e2, entryData e1 = entryData e2 → F (i, e1) = G (i, e2)) :
    ∀ (es1 es2 : List StateEntry) (k : ℕ), es1.map entryData = es2.map entryData →
      (es1.enumFrom k).map F = (es2.enumFrom k).map G := by
  intro es1
  induction es1 with
  | nil =>
    intro es2 k h
    cases es2 with
    | nil => rfl
    | cons e es => simp at h
  | cons e1 es1' ih =>
    intro es2 k h
    cases es2 with
    | nil => simp at h
    | cons e2 es2' =>
      simp only [List.map_cons, List.cons.injEq] at h
      simp only [List.enumFrom, List.map_cons]
      rw [hFG k e1 e2 h.1, ih es2' (k + 1) h.2]

lemma outputTerms_congr (b1 b2 : Block) (st : List ℝ)
    (hb : b1.Entries.map entryData = b2.Entries.map entryData) :
    outputTerms b1 st = outputTerms b2 st := by
  rw [outputTerms, outputTerms]
  exact enumFrom_map_congr _ _
    (fun i e1 e2 he => by
      have hvec : e1.Output.vec = e2.Output.vec := congrArg Prod.fst he
      simp only [hvec])
    b1.Entries b2.Entries 0 hb

lemma transTerms_congr (b1 b2 : Block) (c : ℕ) (st : List ℝ)
    (hb : b1.Entries.map entryData = b2.Entries.map entryData) :
    transTerms b1 c st = transTerms b2 c st := by
  rw [transTerms, transTerms]
  exact enumFrom_map_congr _ _
    (fun i e1 e2 he => by
      have hvec : (e1.Transitions.getD c dfltVar).vec = (e2.Transitions.getD c dfltVar).vec := by
        have h2 : e1.Transitions.map Variable.vec = e2.Transitions.map Variable.vec :=
          congrArg Prod.snd he
        rw [getD_map_vec, getD_map_vec, h2]
      simp only [hvec])
    b1.Entries b2.Entries 0 hb

lemma usedState_congr (b1 b2 : Block) (st : List ℝ)
    (hlen : b1.Entries.length = b2.Entries.length) :
    usedState b1 st = usedState b2 st := by
  rw [usedState, usedState, initialStateVec, initialStateVec, hlen]

lemma item_congr (b1 b2 : Block) (hb : b1.Entries.map entryData = b2.Entries.map entryData)
    (iv st : List ℝ) :
    itemOutput b1 iv st = itemOutput b2 iv st ∧
    itemNewState b1 iv st = itemNewState b2 iv st := by
  have hlen : b1.Entries.length = b2.Entries.length := by
    have h := congrArg List.length hb
    simpa using h
  have hus := usedState_congr b1 b2 st hlen
  constructor
  · rw [itemOutput, itemOutput, hus, outputTerms_congr b1 b2 _ hb]
  · rw [itemNewState, itemNewState, hus, transTerms_congr b1 b2 _ _ hb]

lemma zip_map_vec_congr (f g : List ℝ → List ℝ → List ℝ)
    (hfg : ∀ a c, f a c = g a c) :
    ∀ (I1 S1 I2 S2 : List Variable),
      I1.map Variable.vec = I2.map Variable.vec →
      S1.map Variable.vec = S2.map Variable.vec →
      (I1.zip S1).map (fun p => f p.1.vec p.2.vec)
        = (I2.zip S2).map (fun p => g p.1.vec p.2.vec) := by
  intro I1
  induction I1 with
  | nil =>
    intro S1 I2 S2 hI hS
    cases I2 with
    | nil => rfl
    | cons x xs => simp at hI
  | cons x1 I1' ih =>
    intro S1 I2 S2 hI hS
    cases I2 with
    | nil => simp at hI
    | cons x2 I2' =>
      simp only [List.map_cons, List.cons.injEq] at hI
      cases S1 with
      | nil =>
        cases S2 with
        | nil => rfl
        | cons y ys => simp at hS
      | cons y1 S1' =>
        cases S2 with
        | nil => simp at hS
        | cons y2 S2' =>
          simp only [List.map_cons, List.cons.injEq] at hS
          simp only [List.zip_cons_cons, List.map_cons]
          rw [hI.1, hS.1, hfg, ih S1' I2' S2' hI.2 hS.2]

/-- C9: the forward pass is deterministic and depends only on the numeric
values of the parameters and inputs, not on variable identities: two Batch
invocations on blocks holding equal vectors, with inputs and incoming states
holding equal vectors, produce equal output and next-state vectors. -/
theorem batch_deterministic (b1 b2 : Block) (inp1 inp2 : BlockInput)
    (hb : b1.Entries.map entryData = b2.Entries.map entryData)
    (hin : inp1.Inputs.map Variable.vec = inp2.Inputs.map Variable.vec)
    (hst : inp1.States.map Variable.vec = inp2.States.map Variable.vec) :
    (BatchT b1 inp1).1 = (BatchT b2 inp2).1 := by
  rw [BatchT_formula, BatchT_formula]
  have hO := zip_map_vec_congr (fun a c => itemOutput b1 a c) (fun a c => itemOutput b2 a c)
    (fun a c => (item_congr b1 b2 hb a c).1) inp1.Inputs inp1.States inp2.Inputs inp2.States
    hin hst
  have hN := zip_map_vec_congr (fun a c => itemNewState b1 a c) (fun a c => itemNewState b2 a c)
    (fun a c => (item_congr b1 b2 hb a c).2) inp1.Inputs inp1.States inp2.Inputs inp2.States
    hin hst
  rw [hO, hN]

/-- Witness for C9: two concrete blocks holding the same vectors under
different variable identities produce the same Batch outputs. -/
theorem batch_deterministic_witness :
    (BatchT (newBlockP 1 1) ⟨[⟨VarId.ext 0, [0]⟩], [⟨VarId.ext 1, [0]⟩]⟩).1
      = (BatchT (⟨[⟨⟨VarId.ext 5, [0]⟩, [⟨VarId.ext 6, [0]⟩]⟩]⟩ : Block)
          ⟨[⟨VarId.ext 0, [0]⟩], [⟨VarId.ext 1, [0]⟩]⟩).1 :=
  batch_deterministic _ _ _ _ rfl rfl rfl

end Statebrain
